import Mathlib

/-!
# minivault - verification of the storage, WAL, placer, cluster and server core

Shallow embedding of the Go sources of bopmite/minivault (src/storage.go,
src/wal.go, src/cache.go, src/bloom.go, src/hash.go, the binary-protocol
cluster in the repository's cluster file, and the binary server).  Byte
strings are `List Nat` with entries below 256; unsigned machine integers are
`Nat` with explicit `% 2 ^ w` where Go's fixed-width arithmetic can wrap.
Fallible operations return `Except` / `Option`; the demonic parts of the
environment (OS write outcomes, result arrival order, sync.Map enumeration
order, eviction victim choice) are explicit parameters, so every theorem
quantifies over all of their resolutions.
-/

namespace Minivault

/-! ## Constants (main.go / the binary-protocol constants file) -/

def MaxValueSize : Nat := 100 * 1024 * 1024
def MaxCacheSize : Int := 512 * 1024 * 1024

/-! ## storage.go: fmtHex / parseHex -/

/-- The lookup string `const hex = "0123456789abcdef"` of `fmtHex`. -/
def hexDigits : List Char := "0123456789abcdef".toList

/-- The loop of `fmtHex`: `buf[i] = hex[h&0xf]; h >>= 4` for `i = 15 .. 0`;
`fmtHexAux n h` is the last `n` characters produced, most significant first. -/
def fmtHexAux : Nat → Nat → List Char
  | 0, _ => []
  | n + 1, h => fmtHexAux n (h / 16) ++ [hexDigits.getD (h % 16) '0']

/-- `fmtHex` (storage.go): 16-character lowercase hex of a 64-bit hash. -/
def fmtHex (h : Nat) : List Char := fmtHexAux 16 h

/-- The character classes of `parseHex`: digits and `'a'..'f'` contribute their
value, any other character contributes 0 (the shift still happens). -/
def hexVal (c : Char) : Nat :=
  if '0' ≤ c ∧ c ≤ '9' then c.toNat - '0'.toNat
  else if 'a' ≤ c ∧ c ≤ 'f' then c.toNat - 'a'.toNat + 10
  else 0

/-- `parseHex` (storage.go): left fold `h = h<<4 | val c` over the first 16
characters, on a `uint64` accumulator. -/
def parseHex (s : List Char) : Nat :=
  (s.take 16).foldl (fun h c => (h * 16 + hexVal c) % 2 ^ 64) 0

theorem hexVal_getD (d : Nat) (hd : d < 16) : hexVal (hexDigits.getD d '0') = d := by
  interval_cases d <;> decide

theorem fmtHexAux_length (n h : Nat) : (fmtHexAux n h).length = n := by
  induction n generalizing h with
  | zero => rfl
  | succ n ih => simp [fmtHexAux, ih]

theorem mod_mul_low (h P : Nat) (hP : 0 < P) :
    h % (16 * P) = 16 * (h / 16 % P) + h % 16 := by
  have h1 : h = (16 * (h / 16 % P) + h % 16) + (h / 16 / P) * (16 * P) := by
    have e1 := Nat.div_add_mod h 16
    have e2 := Nat.div_add_mod (h / 16) P
    nlinarith [e1, e2]
  have hlt : 16 * (h / 16 % P) + h % 16 < 16 * P := by
    have b1 : h / 16 % P < P := Nat.mod_lt _ hP
    have b2 : h % 16 < 16 := Nat.mod_lt _ (by norm_num)
    nlinarith
  calc h % (16 * P)
      = ((16 * (h / 16 % P) + h % 16) + (h / 16 / P) * (16 * P)) % (16 * P) := by rw [← h1]
    _ = (16 * (h / 16 % P) + h % 16) % (16 * P) := Nat.add_mul_mod_self_right _ _ _
    _ = 16 * (h / 16 % P) + h % 16 := Nat.mod_eq_of_lt hlt

theorem parse_fmtHexAux (n : Nat) (hn : n ≤ 16) :
    ∀ (h a : Nat), a * 16 ^ n + h % 16 ^ n < 2 ^ 64 →
      (fmtHexAux n h).foldl (fun x c => (x * 16 + hexVal c) % 2 ^ 64) a
        = a * 16 ^ n + h % 16 ^ n := by
  induction n with
  | zero => intro h a _; simp [fmtHexAux, Nat.mod_one]
  | succ n ih =>
    intro h a hbound
    have hP : (0 : Nat) < 16 ^ n := Nat.pos_pow_of_pos n (by norm_num)
    have hsplit : h % 16 ^ (n + 1) = 16 * (h / 16 % 16 ^ n) + h % 16 := by
      have : (16 : Nat) ^ (n + 1) = 16 * 16 ^ n := by ring
      rw [this, mod_mul_low h (16 ^ n) hP]
    have hbound' : a * 16 ^ n + h / 16 % 16 ^ n < 2 ^ 64 := by
      have : 16 * (a * 16 ^ n + h / 16 % 16 ^ n) ≤ a * 16 ^ (n + 1) + h % 16 ^ (n + 1) := by
        rw [hsplit]; ring_nf; omega
      omega
    have ihr := ih (Nat.le_of_succ_le hn) (h / 16) a hbound'
    have hdig : h % 16 < 16 := Nat.mod_lt _ (by norm_num)
    calc (fmtHexAux (n + 1) h).foldl (fun x c => (x * 16 + hexVal c) % 2 ^ 64) a
        = ((fmtHexAux n (h / 16)).foldl (fun x c => (x * 16 + hexVal c) % 2 ^ 64) a * 16
            + hexVal (hexDigits.getD (h % 16) '0')) % 2 ^ 64 := by
          simp [fmtHexAux, List.foldl_append]
      _ = ((a * 16 ^ n + h / 16 % 16 ^ n) * 16 + h % 16) % 2 ^ 64 := by
          rw [ihr, hexVal_getD _ hdig]
      _ = (a * 16 ^ (n + 1) + h % 16 ^ (n + 1)) % 2 ^ 64 := by
          rw [hsplit]; ring_nf
      _ = a * 16 ^ (n + 1) + h % 16 ^ (n + 1) := Nat.mod_eq_of_lt hbound

/-- **C10.** For every 64-bit value `h`, `parseHex (fmtHex h) = h`: the
16-character lowercase-hex object name round-trips exactly, so the startup
directory walk recovers precisely the key hash a value file was written
under. -/
theorem hex_roundtrip (h : Nat) (hh : h < 2 ^ 64) : parseHex (fmtHex h) = h := by
  have hlen : (fmtHexAux 16 h).length = 16 := fmtHexAux_length 16 h
  have htake : (fmtHexAux 16 h).take 16 = fmtHexAux 16 h :=
    List.take_of_length_le (by rw [hlen])
  have hb : (0 : Nat) * 16 ^ 16 + h % 16 ^ 16 < 2 ^ 64 := by
    have : h % 16 ^ 16 ≤ h := Nat.mod_le _ _
    omega
  have := parse_fmtHexAux 16 (le_refl 16) h 0 hb
  have h16 : (16 : Nat) ^ 16 = 2 ^ 64 := by norm_num
  rw [parseHex, fmtHex, htake, this, h16]
  simpa using Nat.mod_eq_of_lt hh

/-- Witness for `hex_roundtrip` at a concrete 64-bit value. -/
theorem hex_roundtrip_witness : parseHex (fmtHex 3735928559) = 3735928559 :=
  hex_roundtrip 3735928559 (by norm_num)

/-! ## bloom.go: lock-free bloom filter, k = 3 double hashing

The bit array of `newBloom n` has `max (n*10/64) 1024` 64-bit words; positions
are bit indices below `words * 64`.  The CAS loop of `add` realises an atomic
OR, i.e. pointwise disjunction on the bit array.  Go computes the probe
position in `uint32` arithmetic: `(h1 + i*h2) % uint32(len(bits)*64)` with
`h1 = uint32(h)`, `h2 = uint32(h >> 32)`; for the sizes used here
`len(bits)*64 < 2^32`, so the conversion is value-preserving. -/

structure Bloom where
  bits : Nat → Bool
  nbits : Nat

def newBloom (n : Nat) : Bloom :=
  { bits := fun _ => false, nbits := max (n * 10 / 64) 1024 * 64 }

/-- Probe position `i` of hash `h`: `(uint32(h) + i * uint32(h >> 32))` in
32-bit arithmetic, reduced modulo the bit count. -/
def bloomPos (b : Bloom) (h i : Nat) : Nat :=
  (h % 2 ^ 32 + i * (h / 2 ^ 32 % 2 ^ 32)) % 2 ^ 32 % b.nbits

/-- `bloom.add`: set the three probe bits (k = 3). -/
def bloomAdd (b : Bloom) (h : Nat) : Bloom :=
  { b with bits := fun p =>
      b.bits p || decide (p = bloomPos b h 0) || decide (p = bloomPos b h 1)
        || decide (p = bloomPos b h 2) }

/-- `bloom.has`: true iff all three probe bits are set. -/
def bloomHas (b : Bloom) (h : Nat) : Bool :=
  b.bits (bloomPos b h 0) && b.bits (bloomPos b h 1) && b.bits (bloomPos b h 2)

/-! ## cache.go: 256-way sharded map with bloom gate

The shard holding hash `h` is `shards[h % 256]`; since the shard index is a
function of `h`, the union of the 256 shard maps is a single map keyed by the
hash, which is how we represent it ("h is in some shard map" iff `m h ≠ none`).
Entry hit counters are `uint32` and wrap. -/

structure CEntry where
  data : List Nat
  hits : Nat
deriving DecidableEq

structure Cache where
  bloom : Bloom
  m : Nat → Option CEntry
  size : Int
  items : Int

def newCache (n : Nat) : Cache :=
  { bloom := newBloom n, m := fun _ => none, size := 0, items := 0 }

/-- `cache.set`: overwrite resets the hit counter and adjusts `size` by the
length difference; a fresh key also bumps `items` and feeds the bloom
filter. -/
def cacheSet (c : Cache) (h : Nat) (data : List Nat) : Cache :=
  match c.m h with
  | some old =>
      { c with m := Function.update c.m h (some ⟨data, 0⟩),
               size := c.size + ((data.length : Int) - old.data.length) }
  | none =>
      { c with m := Function.update c.m h (some ⟨data, 0⟩),
               size := c.size + data.length,
               items := c.items + 1,
               bloom := bloomAdd c.bloom h }

/-- `cache.get`: bloom-gated lookup; a hit bumps the (wrapping `uint32`) hit
counter.  Returns the looked-up value and the updated cache. -/
def cacheGet (c : Cache) (h : Nat) : Option (List Nat) × Cache :=
  if bloomHas c.bloom h then
    match c.m h with
    | some e =>
        (some e.data,
         { c with m := Function.update c.m h (some ⟨e.data, (e.hits + 1) % 2 ^ 32⟩) })
    | none => (none, c)
  else (none, c)

/-- `cache.del`: remove the entry and release its counters. -/
def cacheDel (c : Cache) (h : Nat) : Cache :=
  match c.m h with
  | some e =>
      { c with m := Function.update c.m h none,
               size := c.size - e.data.length,
               items := c.items - 1 }
  | none => c

/-- `cache.has`: bloom gate, then shard-map membership. -/
def cacheHas (c : Cache) (h : Nat) : Bool :=
  bloomHas c.bloom h && (c.m h).isSome

/-- `cache.evict`: when `size ≥ max` and at least 4 items are cached, delete
`items / 4` victims.  The concrete victims come from a min-heap over the racy
hit counters with implementation-defined tie order; the embedding therefore
takes the victim list as a demonic parameter, so theorems hold for every
possible heap outcome. -/
def cacheEvict (c : Cache) (max : Int) (victims : List Nat) : Cache :=
  if c.size < max then c
  else
    let n := (c.items / 4).toNat
    if n = 0 then c
    else (victims.take n).foldl cacheDel c

/-! ### C9: bloom soundness over all reachable cache states -/

inductive CacheOp where
  | set (h : Nat) (data : List Nat)
  | get (h : Nat)
  | del (h : Nat)

def cacheStep (c : Cache) : CacheOp → Cache
  | .set h data => cacheSet c h data
  | .get h => (cacheGet c h).2
  | .del h => cacheDel c h

/-- All states reachable from `newCache 100000` (the cache built by
`NewStorage`) by a sequence of set/get/del operations. -/
def cacheRun (ops : List CacheOp) : Cache :=
  ops.foldl cacheStep (newCache 100000)

theorem bloomPos_bloomAdd (b : Bloom) (h' h i : Nat) :
    bloomPos (bloomAdd b h') h i = bloomPos b h i := rfl

theorem bloomAdd_has (b : Bloom) (h : Nat) : bloomHas (bloomAdd b h) h = true := by
  simp only [bloomHas, bloomPos_bloomAdd, Bool.and_eq_true]
  refine ⟨⟨?_, ?_⟩, ?_⟩ <;> simp [bloomAdd]

theorem bloomAdd_nbits (b : Bloom) (h : Nat) : (bloomAdd b h).nbits = b.nbits := rfl

theorem bloomAdd_mono (b : Bloom) (h : Nat) (p : Nat) (hp : b.bits p = true) :
    (bloomAdd b h).bits p = true := by
  simp [bloomAdd, hp]

theorem bloomHas_mono (b b' : Bloom) (h : Nat)
    (hn : b'.nbits = b.nbits)
    (hb : ∀ p, b.bits p = true → b'.bits p = true)
    (hh : bloomHas b h = true) : bloomHas b' h = true := by
  simp only [bloomHas, Bool.and_eq_true] at hh ⊢
  have hpos : ∀ i, bloomPos b' h i = bloomPos b h i := by
    intro i; simp [bloomPos, hn]
  refine ⟨⟨?_, ?_⟩, ?_⟩ <;> rw [hpos] <;>
    [exact hb _ hh.1.1; exact hb _ hh.1.2; exact hb _ hh.2]

/-- The inductive invariant: every cached hash passes the bloom test, and the
bit array only ever grows. -/
def CacheInv (c : Cache) : Prop :=
  ∀ h, (c.m h).isSome → bloomHas c.bloom h = true

theorem cacheStep_nbits (c : Cache) (op : CacheOp) :
    (cacheStep c op).bloom.nbits = c.bloom.nbits := by
  cases op with
  | set h data =>
      simp only [cacheStep, cacheSet]
      cases c.m h <;> rfl
  | get h =>
      simp only [cacheStep, cacheGet]
      split
      · cases hm : c.m h <;> simp [hm]
      · rfl
  | del h =>
      simp only [cacheStep, cacheDel]
      cases c.m h <;> rfl

theorem cacheStep_bits_mono (c : Cache) (op : CacheOp) (p : Nat)
    (hp : c.bloom.bits p = true) : (cacheStep c op).bloom.bits p = true := by
  cases op with
  | set h data =>
      simp only [cacheStep, cacheSet]
      cases c.m h
      · exact bloomAdd_mono _ _ _ hp
      · exact hp
  | get h =>
      simp only [cacheStep, cacheGet]
      split
      · cases hm : c.m h <;> simp [hm, hp]
      · exact hp
  | del h =>
      simp only [cacheStep, cacheDel]
      cases c.m h <;> exact hp

theorem cacheStep_inv (c : Cache) (op : CacheOp) (hc : CacheInv c) :
    CacheInv (cacheStep c op) := by
  intro h hsome
  cases op with
  | set h' data =>
      simp only [cacheStep, cacheSet] at hsome ⊢
      cases hm : c.m h' with
      | some old =>
          simp only [hm] at hsome ⊢
          by_cases he : h = h'
          · subst he
            exact hc h (by simp [hm])
          · simp only [Function.update, dif_neg he] at hsome
            exact hc h hsome
      | none =>
          simp only [hm] at hsome ⊢
          by_cases he : h = h'
          · subst he
            exact bloomAdd_has _ _
          · simp only [Function.update, dif_neg he] at hsome
            exact bloomHas_mono c.bloom (bloomAdd c.bloom h') h rfl
              (fun p => bloomAdd_mono _ _ _) (hc h hsome)
  | get h' =>
      simp only [cacheStep, cacheGet] at hsome ⊢
      by_cases hb : bloomHas c.bloom h' = true
      · simp only [hb, if_true] at hsome ⊢
        cases hm : c.m h' with
        | some e =>
            simp only [hm] at hsome
            by_cases he : h = h'
            · subst he; exact hc h (by simp [hm])
            · simp only [Function.update, dif_neg he] at hsome
              exact hc h hsome
        | none => simp only [hm] at hsome; exact hc h hsome
      · simp only [Bool.not_eq_true] at hb
        simp only [hb, Bool.false_eq_true, if_false] at hsome ⊢
        exact hc h hsome
  | del h' =>
      simp only [cacheStep, cacheDel] at hsome ⊢
      cases hm : c.m h' with
      | some e =>
          simp only [hm] at hsome
          by_cases he : h = h'
          · subst he; simp [Function.update] at hsome
          · simp only [Function.update, dif_neg he] at hsome
            exact hc h hsome
      | none => simp only [hm] at hsome; exact hc h hsome

theorem foldl_cacheStep_inv (ops : List CacheOp) :
    ∀ c : Cache, CacheInv c → CacheInv (ops.foldl cacheStep c) := by
  induction ops with
  | nil => intro c hc; exact hc
  | cons op ops ih =>
      intro c hc
      rw [List.foldl_cons]
      exact ih _ (cacheStep_inv c op hc)

theorem cacheRun_inv (ops : List CacheOp) : CacheInv (cacheRun ops) := by
  have base : CacheInv (newCache 100000) := by
    intro h hsome; simp [newCache] at hsome
  exact foldl_cacheStep_inv ops _ base

/-- **C9.** (1) For every hash `h`, after `bloom.add h` the query `bloom.has h`
returns true.  (2) In every cache state reachable from `newCache 100000` by
set/get/del operations, `bloom.has h = false` implies no shard map contains
`h`.  (3) Nothing is ever removed from the filter: a set bit stays set across
every further operation. -/
theorem bloom_soundness :
    (∀ (b : Bloom) (h : Nat), bloomHas (bloomAdd b h) h = true) ∧
    (∀ (ops : List CacheOp) (h : Nat),
      bloomHas (cacheRun ops).bloom h = false → (cacheRun ops).m h = none) ∧
    (∀ (ops : List CacheOp) (op : CacheOp) (p : Nat),
      (cacheRun ops).bloom.bits p = true →
        (cacheRun (ops ++ [op])).bloom.bits p = true) := by
  refine ⟨bloomAdd_has, ?_, ?_⟩
  · intro ops h hfalse
    by_contra hne
    have hsome : ((cacheRun ops).m h).isSome := by
      cases hm : (cacheRun ops).m h with
      | none => exact absurd hm hne
      | some e => simp
    have := cacheRun_inv ops h hsome
    rw [this] at hfalse
    exact absurd hfalse (by simp)
  · intro ops op p hp
    have : cacheRun (ops ++ [op]) = cacheStep (cacheRun ops) op := by
      simp [cacheRun, List.foldl_append]
    rw [this]
    exact cacheStep_bits_mono _ _ _ hp

/-- Witness for `bloom_soundness` at concrete inputs: after inserting hash 0,
hash 1 fails the bloom test and is indeed absent; the bit set by the insert
survives a later delete. -/
theorem bloom_soundness_witness :
    (cacheRun [CacheOp.set 0 [1]]).m 1 = none ∧
    (cacheRun ([CacheOp.set 0 [1]] ++ [CacheOp.del 0])).bloom.bits 0 = true :=
  ⟨bloom_soundness.2.1 [CacheOp.set 0 [1]] 1 (by decide),
   bloom_soundness.2.2 [CacheOp.set 0 [1]] (CacheOp.del 0) 0 (by decide)⟩

/-! ## hash.go: FNV-1a over the key bytes (`hash64str`) -/

def fnvOffset : Nat := 14695981039346656037
def fnvPrime : Nat := 1099511628211

/-- `hash64str`: 64-bit FNV-1a over the bytes of the key. -/
def hash64str (s : List Nat) : Nat :=
  s.foldl (fun h c => (h ^^^ c) * fnvPrime % 2 ^ 64) fnvOffset

/-! ## wal.go: the append channel

`wal.append` is a `select` with a `default` branch on a channel of capacity
`walMaxBatch * 2 = 2000`: when the channel is full the record is dropped on
the floor.  The channel contents are the queue of entries not yet drained by
the flusher. -/

structure WalEntry where
  hash : Nat
  data : List Nat
deriving DecidableEq

def walChanCap : Nat := 2000

/-- `wal.append` (wal.go 58-63): non-blocking send; the `default` branch of
the `select` silently drops the record when the channel is full. -/
def walAppend (ch : List WalEntry) (h : Nat) (data : List Nat) : List WalEntry :=
  if ch.length < walChanCap then ch ++ [⟨h, data⟩] else ch

/-! ## storage.go: the storage engine

State: the sharded cache, the on-disk object map keyed by the 64-bit hash
(the path `dir/hh/hash_hex` is a function of the hash alone - by
`hex_roundtrip` a bijection), the WAL channel contents, and the engine's
`size` counter.  `os.WriteFile` can fail; each Set op carries a demonic
`diskOk` flag for that outcome (a failed write leaves the previous object).
`cache.evict`'s victims are likewise demonic (see `cacheEvict`). -/

structure StorageSt where
  cache : Cache
  disk : Nat → Option (List Nat)
  walCh : List WalEntry
  size : Int

/-- The state of a storage engine freshly created on an empty directory. -/
def emptyStorage : StorageSt :=
  { cache := newCache 100000, disk := fun _ => none, walCh := [], size := 0 }

/-- `Storage.Set` (storage.go 87-119).  Returns the new state and the result
surfaced to the caller.  Mirrors the code line by line: size probe via
`cache.get` (which bumps the hit counter) or `os.Stat`, `wal.append`,
`cache.set`, `os.WriteFile` (rolling back the size delta on failure), then
opportunistic eviction. -/
def storageSet (st : StorageSt) (key value : List Nat) (diskOk : Bool)
    (victims : List Nat) : StorageSt × Except String Unit :=
  if value.length > MaxValueSize then (st, .error "too large")
  else
    let h := hash64str key
    let probe := cacheGet st.cache h
    let oldSize : Int :=
      match probe.1 with
      | some old => old.length
      | none =>
          match st.disk h with
          | some f => f.length
          | none => 0
    let c1 := probe.2
    let ch := walAppend st.walCh h value
    let c2 := cacheSet c1 h value
    let delta : Int := (value.length : Int) - oldSize
    let sz := st.size + delta
    if diskOk then
      let st' : StorageSt :=
        { cache := c2, disk := Function.update st.disk h (some value),
          walCh := ch, size := sz }
      if st'.size > MaxCacheSize then
        ({ st' with cache := cacheEvict st'.cache MaxCacheSize victims }, .ok ())
      else (st', .ok ())
    else
      ({ cache := c2, disk := st.disk, walCh := ch, size := sz - delta },
       .error "write failed")

/-- `Storage.Get` (storage.go 121-136): cache first (bloom-gated, bumps the
hit counter), then disk; a disk hit is promoted into the cache. -/
def storageGet (st : StorageSt) (key : List Nat) : StorageSt × Option (List Nat) :=
  match cacheGet st.cache (hash64str key) with
  | (some data, c') => ({ st with cache := c' }, some data)
  | (none, c') =>
      match st.disk (hash64str key) with
      | some data =>
          ({ st with cache := cacheSet c' (hash64str key) data }, some data)
      | none => ({ st with cache := c' }, none)

/-- `Storage.Delete` (storage.go 138-159): size probe, tombstone append,
cache delete, best-effort file removal; always returns nil. -/
def storageDelete (st : StorageSt) (key : List Nat) : StorageSt :=
  let h := hash64str key
  let probe := cacheGet st.cache h
  let size : Int :=
    match probe.1 with
    | some d => d.length
    | none =>
        match st.disk h with
        | some f => f.length
        | none => 0
  let sz := if size > 0 then st.size - size else st.size
  { cache := cacheDel probe.2 h,
    disk := Function.update st.disk h none,
    walCh := walAppend st.walCh h [],
    size := sz }

/-- One client-visible storage operation together with the demonic
environment choices it consumes (disk-write outcome, eviction victims). -/
inductive SOp where
  | set (key value : List Nat) (diskOk : Bool) (victims : List Nat)
  | get (key : List Nat)
  | del (key : List Nat)

def sStep (st : StorageSt) : SOp → StorageSt
  | .set key value diskOk victims => (storageSet st key value diskOk victims).1
  | .get key => (storageGet st key).1
  | .del key => storageDelete st key

def sRun (st : StorageSt) (ops : List SOp) : StorageSt :=
  ops.foldl sStep st

/-- An operation writes hash `h` iff it is a Set or Delete of a key whose
64-bit FNV-1a hash is `h`. -/
def SOp.writesHash (h : Nat) : SOp → Prop
  | .set key _ _ _ => hash64str key = h
  | .get _ => False
  | .del key => hash64str key = h

/-! ### C1: Set/Get round trip and persistence -/

/-- Cache coherence at hash `h`: whatever entry the cache holds for `h` (it
may also hold none, e.g. after an eviction) carries exactly the bytes `v`. -/
def QEntry (h : Nat) (v : List Nat) (c : Cache) : Prop :=
  ∀ e, c.m h = some e → e.data = v

theorem QEntry.del {h : Nat} {v : List Nat} {c : Cache} (hq : QEntry h v c)
    (h' : Nat) : QEntry h v (cacheDel c h') := by
  intro e he
  unfold cacheDel at he
  cases hm : c.m h' with
  | some e' =>
      simp only [hm] at he
      by_cases hx : h = h'
      · subst hx; simp [Function.update] at he
      · rw [Function.update_noteq hx] at he
        exact hq e he
  | none => simp only [hm] at he; exact hq e he

theorem QEntry.getQ {h : Nat} {v : List Nat} {c : Cache} (hq : QEntry h v c)
    (h' : Nat) : QEntry h v (cacheGet c h').2 := by
  intro e he
  unfold cacheGet at he
  split at he
  · cases hm : c.m h' with
    | some e' =>
        simp only [hm] at he
        by_cases hx : h = h'
        · subst hx
          rw [Function.update_same] at he
          cases he
          exact hq e' hm
        · rw [Function.update_noteq hx] at he
          exact hq e he
    | none => simp only [hm] at he; exact hq e he
  · exact hq e he

theorem QEntry.set_ne {h : Nat} {v : List Nat} {c : Cache} (hq : QEntry h v c)
    {h' : Nat} (hne : h ≠ h') (d : List Nat) : QEntry h v (cacheSet c h' d) := by
  intro e he
  unfold cacheSet at he
  cases hm : c.m h' <;> simp only [hm] at he <;>
    rw [Function.update_noteq hne] at he <;> exact hq e he

theorem QEntry.set_self {h : Nat} {c : Cache} (v : List Nat) :
    QEntry h v (cacheSet c h v) := by
  intro e he
  unfold cacheSet at he
  cases hm : c.m h <;> simp only [hm] at he <;>
    rw [Function.update_same] at he <;> cases he <;> rfl

theorem QEntry.foldlDel {h : Nat} {v : List Nat} :
    ∀ (l : List Nat) (c : Cache), QEntry h v c → QEntry h v (l.foldl cacheDel c) := by
  intro l
  induction l with
  | nil => intro c hc; exact hc
  | cons x xs ih =>
      intro c hc
      rw [List.foldl_cons]
      exact ih _ (hc.del x)

theorem QEntry.evict {h : Nat} {v : List Nat} {c : Cache} (hq : QEntry h v c)
    (mx : Int) (victims : List Nat) : QEntry h v (cacheEvict c mx victims) := by
  show QEntry h v
    (if c.size < mx then c
     else if (c.items / 4).toNat = 0 then c
     else ((victims.take (c.items / 4).toNat).foldl cacheDel c))
  by_cases h1 : c.size < mx
  · rw [if_pos h1]; exact hq
  · rw [if_neg h1]
    by_cases h2 : (c.items / 4).toNat = 0
    · rw [if_pos h2]; exact hq
    · rw [if_neg h2]
      exact QEntry.foldlDel _ _ hq

/-- The persistence invariant for key-hash `h` with value `v`: the on-disk
object holds `v` and any cache entry for `h` holds `v`. -/
def KeyVal (h : Nat) (v : List Nat) (st : StorageSt) : Prop :=
  QEntry h v st.cache ∧ st.disk h = some v

theorem storageSet_ok_keyVal {st st' : StorageSt} {k v : List Nat} {dOk : Bool}
    {victims : List Nat}
    (hset : storageSet st k v dOk victims = (st', Except.ok ())) :
    KeyVal (hash64str k) v st' := by
  unfold storageSet at hset
  by_cases hlen : v.length > MaxValueSize
  · rw [if_pos hlen] at hset
    cases hset
  rw [if_neg hlen] at hset
  cases dOk with
  | false => simp at hset
  | true =>
      simp only [if_true] at hset
      set h := hash64str k with hh
      split at hset <;>
        (cases hset with
         | refl => ?_)
      · constructor
        · exact (QEntry.set_self v).evict _ _
        · simp [Function.update_same]
      · constructor
        · exact QEntry.set_self v
        · simp [Function.update_same]

theorem keyVal_step {h : Nat} {v : List Nat} {st : StorageSt} (hkv : KeyVal h v st)
    (op : SOp) (hop : ¬ op.writesHash h) : KeyVal h v (sStep st op) := by
  obtain ⟨hq, hd⟩ := hkv
  cases op with
  | set key value dOk victims =>
      have hne : hash64str key ≠ h := hop
      show KeyVal h v (storageSet st key value dOk victims).1
      unfold storageSet
      by_cases hlen : value.length > MaxValueSize
      · rw [if_pos hlen]; exact ⟨hq, hd⟩
      rw [if_neg hlen]
      cases dOk with
      | false =>
          simp only [Bool.false_eq_true, if_false]
          exact ⟨(hq.getQ _).set_ne (fun he => hne he.symm) _, hd⟩
      | true =>
          simp only [if_true]
          split
          · refine ⟨((hq.getQ _).set_ne (fun he => hne he.symm) _).evict _ _, ?_⟩
            simpa [Function.update_noteq (fun he : h = hash64str key => hne he.symm)] using hd
          · refine ⟨(hq.getQ _).set_ne (fun he => hne he.symm) _, ?_⟩
            simpa [Function.update_noteq (fun he : h = hash64str key => hne he.symm)] using hd
  | get key =>
      show KeyVal h v (storageGet st key).1
      unfold storageGet
      cases hg : cacheGet st.cache (hash64str key) with
      | mk fst c' =>
          have hq' : QEntry h v c' := by
            have := hq.getQ (hash64str key)
            rw [hg] at this
            exact this
          cases fst with
          | some data => exact ⟨hq', hd⟩
          | none =>
              cases hdisk : st.disk (hash64str key) with
              | some data =>
                  refine ⟨?_, hd⟩
                  by_cases hx : hash64str key = h
                  · subst hx
                    rw [hd] at hdisk
                    cases hdisk
                    exact QEntry.set_self v
                  · exact hq'.set_ne (fun he => hx he.symm) data
              | none => exact ⟨hq', hd⟩
  | del key =>
      have hne : hash64str key ≠ h := hop
      show KeyVal h v (storageDelete st key)
      unfold storageDelete
      refine ⟨((hq.getQ _).del _), ?_⟩
      simpa [Function.update_noteq (fun he : h = hash64str key => hne he.symm)] using hd

theorem keyVal_run {h : Nat} {v : List Nat} {ops : List SOp} :
    ∀ {st : StorageSt}, KeyVal h v st → (∀ op ∈ ops, ¬ op.writesHash h) →
      KeyVal h v (sRun st ops) := by
  induction ops with
  | nil => intro st hkv _; exact hkv
  | cons op ops ih =>
      intro st hkv hops
      rw [sRun, List.foldl_cons]
      exact ih (keyVal_step hkv op (hops op (by simp)))
        (fun o ho => hops o (by simp [ho]))

theorem keyVal_get {h : Nat} {v k : List Nat} {st : StorageSt}
    (hk : hash64str k = h) (hkv : KeyVal h v st) :
    (storageGet st k).2 = some v := by
  obtain ⟨hq, hd⟩ := hkv
  unfold storageGet
  rw [hk]
  cases hg : cacheGet st.cache h with
  | mk fst c' =>
      cases fst with
      | some data =>
          simp only
          have : data = v := by
            unfold cacheGet at hg
            split at hg
            · cases hm : st.cache.m h with
              | some e =>
                  simp only [hm] at hg
                  cases hg
                  exact hq e hm
              | none => simp [hm] at hg
            · simp at hg
          rw [this]
      | none => simp [hd]

/-- **C1.** For every key `k` and value `v` within the 100 MiB cap, after a
successful `Storage.Set k v` the local `Storage.Get k` returns exactly `v`,
and keeps doing so across any further operations that are not a
`Set`/`Delete` of `k` - interleaved `Get`s of any key, `Set`/`Delete` of
other keys, disk-write failures of those other Sets and arbitrary cache
evictions included.  "Other keys" are captured by their 64-bit FNV-1a hash
(`SOp.writesHash`), the key identity the engine itself uses; per the spec's
collision-safety assumption (I6) this coincides with key inequality. -/
theorem storage_set_get_roundtrip (st st' : StorageSt) (k v : List Nat)
    (dOk : Bool) (victims : List Nat) (ops : List SOp)
    (hlen : v.length ≤ MaxValueSize)
    (hset : storageSet st k v dOk victims = (st', Except.ok ()))
    (hops : ∀ op ∈ ops, ¬ op.writesHash (hash64str k)) :
    (storageGet (sRun st' ops) k).2 = some v :=
  keyVal_get rfl (keyVal_run (storageSet_ok_keyVal hset) hops)

/-- Witness for `storage_set_get_roundtrip`: on the fresh engine, set key
`[1]` to `[2]`, then interleave a Set of another key, a Get of `[1]` and a
Delete of a third key; Get `[1]` still returns `[2]`. -/
theorem storage_set_get_roundtrip_witness :
    (storageGet
      (sRun (storageSet emptyStorage [1] [2] true []).1
        [SOp.set [3] [4] true [], SOp.get [1], SOp.del [5]]) [1]).2 = some [2] := by
  refine storage_set_get_roundtrip emptyStorage _ [1] [2] true [] _ (by norm_num [MaxValueSize]) ?_ ?_
  · exact Prod.ext_iff.mpr ⟨rfl, rfl⟩
  · intro op hop
    simp only [List.mem_cons, List.mem_singleton] at hop
    rcases hop with h1 | h2 | h3 | hf
    · subst h1; show ¬ (hash64str [3] = hash64str [1]); decide
    · subst h2; exact not_false
    · subst h3; show ¬ (hash64str [5] = hash64str [1]); decide
    · cases hf

/-! ### C6: startup WAL replay (`Storage.replayWAL`, storage.go 50-63)

`replayWAL` feeds each replayed record through a callback that, for a record
with empty data, returns nil immediately - the tombstone is NOT applied as a
deletion.  A non-empty record rewrites the on-disk object and populates the
cache. -/

/-- The callback of `Storage.replayWAL` applied to one replayed record,
starting from storage state `st` (the disk-write is assumed to succeed, as in
a healthy startup). -/
def replayWALStep (st : StorageSt) (e : WalEntry) : StorageSt :=
  if e.data.length = 0 then st
  else
    { st with disk := Function.update st.disk e.hash (some e.data),
              cache := cacheSet st.cache e.hash e.data,
              size := st.size + e.data.length }

/-- `Storage.replayWAL` over an already-parsed record sequence. -/
def replayWAL (st : StorageSt) (records : List WalEntry) : StorageSt :=
  records.foldl replayWALStep st

/-- A fresh storage state whose directory still holds an object for hash 1
(as after a crash between the WAL flush of a Delete and the file removal). -/
def preStorageC6 : StorageSt :=
  { emptyStorage with disk := Function.update (fun _ => none) 1 (some [7]) }

/-- **C6.** The claim fails on the code: replaying the WAL
`[set (h=1) [7], tombstone (h=1)]` at startup leaves hash 1 PRESENT in the
cache with value `[7]` (and the on-disk object intact), because the replay
callback returns early on empty data instead of deleting.  The spec (and the
tombstone handling in `wal.compact`, which does delete) says the
reconstructed state must not contain hash 1. -/
theorem replay_ignores_tombstone :
    (replayWAL preStorageC6 [⟨1, [7]⟩, ⟨1, []⟩]).cache.m 1 = some ⟨[7], 0⟩ ∧
    (replayWAL preStorageC6 [⟨1, [7]⟩, ⟨1, []⟩]).disk 1 = some [7] := by
  constructor <;> decide

/-! ## wal.go: on-disk record framing and `wal.replay`

Record framing (little-endian):
`magic u16 = 0xDEAD | key-hash u64 | value-length u32 | checksum u16 | value`
with checksum = low 16 bits of IEEE CRC32 over the value bytes. -/

/-- One round of the reflected IEEE CRC32: shift right, conditionally xor the
reversed polynomial (this is what `crc32.ChecksumIEEE` computes
table-driven). -/
def crc32Round (c : Nat) : Nat :=
  if c % 2 = 1 then (c / 2) ^^^ 0xEDB88320 else c / 2

def crc32Byte (c b : Nat) : Nat := crc32Round^[8] (c ^^^ b % 256)

/-- IEEE CRC32 (the `crc32.ChecksumIEEE` of the Go standard library). -/
def crc32 (data : List Nat) : Nat :=
  data.foldl crc32Byte 0xFFFFFFFF ^^^ 0xFFFFFFFF

def walMagic : Nat := 0xDEAD

def le16 (n : Nat) : List Nat := [n % 256, n / 256 % 256]

def le32 (n : Nat) : List Nat :=
  [n % 256, n / 256 % 256, n / 2 ^ 16 % 256, n / 2 ^ 24 % 256]

def le64 (n : Nat) : List Nat :=
  [n % 256, n / 2 ^ 8 % 256, n / 2 ^ 16 % 256, n / 2 ^ 24 % 256,
   n / 2 ^ 32 % 256, n / 2 ^ 40 % 256, n / 2 ^ 48 % 256, n / 2 ^ 56 % 256]

/-- The 16-byte header + value bytes written for one record by
`wal.flushLocked` (and `wal.compact`). -/
def encodeRecord (e : WalEntry) : List Nat :=
  le16 walMagic ++ le64 e.hash ++ le32 e.data.length ++ le16 (crc32 e.data % 2 ^ 16)
    ++ e.data

/-- A WAL file: the concatenation of its records' encodings. -/
def encodeFile (rs : List WalEntry) : List Nat :=
  (rs.map encodeRecord).foldr (· ++ ·) []

/-- `wal.replay` (wal.go 188-232) over the file bytes.  Returns the records
delivered to the callback, in order, and whether replay completed without
error.  The 16-cons pattern is `io.ReadFull` of the header followed by the
`binary.LittleEndian` field decodes (`b0,b1` magic, `b2..b9` hash,
`b10..b13` value length, `b14,b15` checksum).  `io.ReadFull` yields `io.EOF`
(benign break) only on an empty file; a 1..15-byte tail is
`ErrUnexpectedEOF` and is returned as an error, as is any short read of the
value bytes.  A magic mismatch or a checksum mismatch breaks the loop with
no error. -/
def walReplay (l : List Nat) (acc : List WalEntry) : List WalEntry × Bool :=
  match l with
  | [] => (acc, true)
  | b0 :: b1 :: b2 :: b3 :: b4 :: b5 :: b6 :: b7 :: b8 :: b9 :: b10 :: b11 :: b12
      :: b13 :: b14 :: b15 :: rest =>
      if b0 + 256 * b1 ≠ walMagic then (acc, true)
      else
        let hash := b2 + 2 ^ 8 * b3 + 2 ^ 16 * b4 + 2 ^ 24 * b5 + 2 ^ 32 * b6
          + 2 ^ 40 * b7 + 2 ^ 48 * b8 + 2 ^ 56 * b9
        let dataLen := b10 + 2 ^ 8 * b11 + 2 ^ 16 * b12 + 2 ^ 24 * b13
        let checksum := b14 + 256 * b15
        if rest.length < dataLen then (acc, false)
        else
          let data := rest.take dataLen
          if crc32 data % 2 ^ 16 ≠ checksum then (acc, true)
          else walReplay (rest.drop dataLen) (acc ++ [⟨hash, data⟩])
  | _ => (acc, false)
termination_by l.length
decreasing_by
  simp only [List.length_drop, List.length_cons]
  omega

/-- A well-formed record: the hash fits `uint64` and the value length fits
`uint32` (both hold for everything the engine ever appends). -/
def WFRecord (e : WalEntry) : Prop := e.hash < 2 ^ 64 ∧ e.data.length < 2 ^ 32

theorem walReplay_nil (acc : List WalEntry) : walReplay [] acc = (acc, true) := by
  rw [walReplay.eq_def]

theorem walReplay_cons16 (b0 b1 b2 b3 b4 b5 b6 b7 b8 b9 b10 b11 b12 b13 b14 b15 : Nat)
    (rest : List Nat) (acc : List WalEntry) :
    walReplay (b0 :: b1 :: b2 :: b3 :: b4 :: b5 :: b6 :: b7 :: b8 :: b9 :: b10 :: b11
        :: b12 :: b13 :: b14 :: b15 :: rest) acc =
      if b0 + 256 * b1 ≠ walMagic then (acc, true)
      else if rest.length < b10 + 2 ^ 8 * b11 + 2 ^ 16 * b12 + 2 ^ 24 * b13 then (acc, false)
      else if crc32 (rest.take (b10 + 2 ^ 8 * b11 + 2 ^ 16 * b12 + 2 ^ 24 * b13)) % 2 ^ 16
          ≠ b14 + 256 * b15 then (acc, true)
      else walReplay (rest.drop (b10 + 2 ^ 8 * b11 + 2 ^ 16 * b12 + 2 ^ 24 * b13))
        (acc ++ [⟨b2 + 2 ^ 8 * b3 + 2 ^ 16 * b4 + 2 ^ 24 * b5 + 2 ^ 32 * b6 + 2 ^ 40 * b7
          + 2 ^ 48 * b8 + 2 ^ 56 * b9, rest.take (b10 + 2 ^ 8 * b11 + 2 ^ 16 * b12 + 2 ^ 24 * b13)⟩]) := by
  rw [walReplay.eq_def]

theorem walReplay_shortTail (l : List Nat) (acc : List WalEntry)
    (h1 : l ≠ []) (h16 : l.length < 16) : walReplay l acc = (acc, false) := by
  rcases l with _ | ⟨b0, l⟩; · exact absurd rfl h1
  rcases l with _ | ⟨b1, l⟩; · rw [walReplay.eq_def]
  rcases l with _ | ⟨b2, l⟩; · rw [walReplay.eq_def]
  rcases l with _ | ⟨b3, l⟩; · rw [walReplay.eq_def]
  rcases l with _ | ⟨b4, l⟩; · rw [walReplay.eq_def]
  rcases l with _ | ⟨b5, l⟩; · rw [walReplay.eq_def]
  rcases l with _ | ⟨b6, l⟩; · rw [walReplay.eq_def]
  rcases l with _ | ⟨b7, l⟩; · rw [walReplay.eq_def]
  rcases l with _ | ⟨b8, l⟩; · rw [walReplay.eq_def]
  rcases l with _ | ⟨b9, l⟩; · rw [walReplay.eq_def]
  rcases l with _ | ⟨b10, l⟩; · rw [walReplay.eq_def]
  rcases l with _ | ⟨b11, l⟩; · rw [walReplay.eq_def]
  rcases l with _ | ⟨b12, l⟩; · rw [walReplay.eq_def]
  rcases l with _ | ⟨b13, l⟩; · rw [walReplay.eq_def]
  rcases l with _ | ⟨b14, l⟩; · rw [walReplay.eq_def]
  rcases l with _ | ⟨b15, l⟩; · rw [walReplay.eq_def]
  simp at h16
  omega

theorem crc16_lt (d : List Nat) : crc32 d % 2 ^ 16 < 2 ^ 16 :=
  Nat.mod_lt _ (by norm_num)

theorem encodeRecord_cons (e : WalEntry) (rest : List Nat) :
    encodeRecord e ++ rest =
      walMagic % 256 :: walMagic / 256 % 256
      :: e.hash % 256 :: e.hash / 2 ^ 8 % 256 :: e.hash / 2 ^ 16 % 256
      :: e.hash / 2 ^ 24 % 256 :: e.hash / 2 ^ 32 % 256 :: e.hash / 2 ^ 40 % 256
      :: e.hash / 2 ^ 48 % 256 :: e.hash / 2 ^ 56 % 256
      :: e.data.length % 256 :: e.data.length / 256 % 256
      :: e.data.length / 2 ^ 16 % 256 :: e.data.length / 2 ^ 24 % 256
      :: crc32 e.data % 2 ^ 16 % 256 :: crc32 e.data % 2 ^ 16 / 256 % 256
      :: (e.data ++ rest) := by
  simp [encodeRecord, le16, le64, le32]

theorem walReplay_record (e : WalEntry) (rest : List Nat) (acc : List WalEntry)
    (hwf : WFRecord e) :
    walReplay (encodeRecord e ++ rest) acc = walReplay rest (acc ++ [e]) := by
  obtain ⟨hh, hl⟩ := hwf
  rw [encodeRecord_cons, walReplay_cons16]
  have hmagic : walMagic % 256 + 256 * (walMagic / 256 % 256) = walMagic := by
    norm_num [walMagic]
  have hdl : e.data.length % 256 + 2 ^ 8 * (e.data.length / 256 % 256)
      + 2 ^ 16 * (e.data.length / 2 ^ 16 % 256) + 2 ^ 24 * (e.data.length / 2 ^ 24 % 256)
      = e.data.length := by omega
  have hck : crc32 e.data % 2 ^ 16 % 256 + 256 * (crc32 e.data % 2 ^ 16 / 256 % 256)
      = crc32 e.data % 2 ^ 16 := by
    have := crc16_lt e.data
    omega
  have hhz : e.hash % 256 + 2 ^ 8 * (e.hash / 2 ^ 8 % 256) + 2 ^ 16 * (e.hash / 2 ^ 16 % 256)
      + 2 ^ 24 * (e.hash / 2 ^ 24 % 256) + 2 ^ 32 * (e.hash / 2 ^ 32 % 256)
      + 2 ^ 40 * (e.hash / 2 ^ 40 % 256) + 2 ^ 48 * (e.hash / 2 ^ 48 % 256)
      + 2 ^ 56 * (e.hash / 2 ^ 56 % 256) = e.hash := by omega
  rw [hmagic, hdl, hck, hhz]
  rw [if_neg (by simp), List.take_left' rfl, List.drop_left' rfl]
  rw [if_neg (by simp [List.length_append]), if_neg (by simp)]

/-- `encodeFile` of a snoc: the last record's bytes go at the end. -/
theorem encodeFile_snoc (rs : List WalEntry) (r : WalEntry) :
    encodeFile (rs ++ [r]) = encodeFile rs ++ encodeRecord r := by
  induction rs with
  | nil => simp [encodeFile]
  | cons x xs ih =>
      show encodeRecord x ++ encodeFile (xs ++ [r])
        = (encodeRecord x ++ encodeFile xs) ++ encodeRecord r
      rw [ih, List.append_assoc]

theorem walReplay_file (rs : List WalEntry) :
    ∀ (rest : List Nat) (acc : List WalEntry), (∀ e ∈ rs, WFRecord e) →
      walReplay (encodeFile rs ++ rest) acc = walReplay rest (acc ++ rs) := by
  induction rs with
  | nil => intro rest acc _; simp [encodeFile]
  | cons x xs ih =>
      intro rest acc hwf
      have hx : encodeFile (x :: xs) ++ rest = encodeRecord x ++ (encodeFile xs ++ rest) := by
        show (encodeRecord x ++ encodeFile xs) ++ rest = _
        rw [List.append_assoc]
      rw [hx, walReplay_record x _ acc (hwf x (by simp)),
        ih rest (acc ++ [x]) (fun e he => hwf e (by simp [he]))]
      simp

theorem encodeRecord_length (e : WalEntry) :
    (encodeRecord e).length = 16 + e.data.length := by
  simp [encodeRecord, le16, le64, le32]
  omega

/-- The 16 header bytes of one record. -/
def walHeader (e : WalEntry) : List Nat :=
  le16 walMagic ++ le64 e.hash ++ le32 e.data.length ++ le16 (crc32 e.data % 2 ^ 16)

theorem encodeRecord_eq_header (e : WalEntry) :
    encodeRecord e = walHeader e ++ e.data := rfl

theorem walHeader_length (e : WalEntry) : (walHeader e).length = 16 := by
  simp [walHeader, le16, le64, le32]

theorem walHeader_cons (e : WalEntry) (t : List Nat) :
    walHeader e ++ t =
      walMagic % 256 :: walMagic / 256 % 256
      :: e.hash % 256 :: e.hash / 2 ^ 8 % 256 :: e.hash / 2 ^ 16 % 256
      :: e.hash / 2 ^ 24 % 256 :: e.hash / 2 ^ 32 % 256 :: e.hash / 2 ^ 40 % 256
      :: e.hash / 2 ^ 48 % 256 :: e.hash / 2 ^ 56 % 256
      :: e.data.length % 256 :: e.data.length / 256 % 256
      :: e.data.length / 2 ^ 16 % 256 :: e.data.length / 2 ^ 24 % 256
      :: crc32 e.data % 2 ^ 16 % 256 :: crc32 e.data % 2 ^ 16 / 256 % 256
      :: t := by
  simp [walHeader, le16, le64, le32]

/-- Replaying a proper nonempty prefix of a single record's bytes delivers
nothing and errors out: a sub-16-byte tail is a short header read, a longer
prefix parses the header but comes up short on the value bytes. -/
theorem walReplay_partial (r : WalEntry) (m : Nat) (acc : List WalEntry)
    (hl : r.data.length < 2 ^ 32) (h1 : 1 ≤ m) (h2 : m < 16 + r.data.length) :
    walReplay ((encodeRecord r).take m) acc = (acc, false) := by
  by_cases hcase : m < 16
  · have hlen : ((encodeRecord r).take m).length = m := by
      rw [List.length_take, encodeRecord_length]; omega
    apply walReplay_shortTail
    · intro he; rw [he] at hlen; simp at hlen; omega
    · omega
  · obtain ⟨k, hk⟩ := Nat.exists_eq_add_of_le (Nat.le_of_not_lt hcase)
    subst hk
    have hform : (encodeRecord r).take (16 + k) = walHeader r ++ r.data.take k := by
      rw [encodeRecord_eq_header, List.take_append_eq_append_take,
        List.take_of_length_le (by rw [walHeader_length]; omega), walHeader_length,
        show 16 + k - 16 = k from by omega]
    rw [hform, walHeader_cons, walReplay_cons16]
    have hmagic : walMagic % 256 + 256 * (walMagic / 256 % 256) = walMagic := by
      norm_num [walMagic]
    have hdl : r.data.length % 256 + 2 ^ 8 * (r.data.length / 256 % 256)
        + 2 ^ 16 * (r.data.length / 2 ^ 16 % 256)
        + 2 ^ 24 * (r.data.length / 2 ^ 24 % 256) = r.data.length := by omega
    rw [hmagic, hdl, if_neg (by simp)]
    rw [if_pos (by rw [List.length_take]; omega)]

/-- **C5 (amended).** Truncating `n` bytes (`1 ≤ n < 16 + |last value|`) off a
WAL file of well-formed records makes `wal.replay` deliver exactly the
earlier records, in order - the tail never corrupts or suppresses them - but
replay then returns a read error (`io.ErrUnexpectedEOF` / `io.EOF` from the
short `io.ReadFull`) instead of completing without error; only a magic or
checksum mismatch on a complete record is treated as a benign stop. -/
theorem wal_replay_tail_amended (rs : List WalEntry) (r : WalEntry) (n : Nat)
    (hwf : ∀ e ∈ rs, WFRecord e) (hr : WFRecord r)
    (h1 : 1 ≤ n) (h2 : n < 16 + r.data.length) :
    walReplay ((encodeFile (rs ++ [r])).take ((encodeFile (rs ++ [r])).length - n)) []
      = (rs, false) := by
  obtain ⟨hh, hl⟩ := hr
  have hsplit : (encodeFile (rs ++ [r])).take ((encodeFile (rs ++ [r])).length - n)
      = encodeFile rs ++ (encodeRecord r).take (16 + r.data.length - n) := by
    rw [encodeFile_snoc, List.length_append, encodeRecord_length,
      List.take_append_eq_append_take,
      List.take_of_length_le (by omega),
      show (encodeFile rs).length + (16 + r.data.length) - n - (encodeFile rs).length
        = 16 + r.data.length - n from by omega]
  rw [hsplit, walReplay_file rs _ [] hwf, List.nil_append]
  exact walReplay_partial r _ rs hl (by omega) (by omega)

/-- **C5 (counterexample).** The WAL file holding the records
`(hash 1, value [2])` and `(hash 3, empty value)` with its last byte
truncated: `wal.replay` delivers the first record but reports an error,
refuting "completing without error". -/
theorem wal_replay_truncated_cex :
    walReplay ((encodeFile [⟨1, [2]⟩, ⟨3, []⟩]).take
      ((encodeFile [⟨1, [2]⟩, ⟨3, []⟩]).length - 1)) [] = ([⟨1, [2]⟩], false) := by
  have hsplit : (encodeFile [⟨1, [2]⟩, ⟨3, []⟩]).take
      ((encodeFile [⟨1, [2]⟩, ⟨3, []⟩]).length - 1)
      = encodeRecord ⟨1, [2]⟩ ++ (encodeRecord ⟨3, []⟩).take 15 := by decide
  rw [hsplit, walReplay_record ⟨1, [2]⟩ _ [] (by constructor <;> decide)]
  exact walReplay_shortTail _ _ (by decide) (by decide)

/-- Witness for `wal_replay_tail_amended` at a concrete two-record file with
3 bytes truncated off the 5-byte last value. -/
theorem wal_replay_tail_amended_witness :
    walReplay ((encodeFile [⟨7, [9, 9]⟩, ⟨5, [1, 2, 3, 4, 5]⟩]).take
      ((encodeFile [⟨7, [9, 9]⟩, ⟨5, [1, 2, 3, 4, 5]⟩]).length - 3)) []
      = ([⟨7, [9, 9]⟩], false) :=
  wal_replay_tail_amended [⟨7, [9, 9]⟩] ⟨5, [1, 2, 3, 4, 5]⟩ 3
    (by intro e he; simp at he; subst he; constructor <;> decide)
    (by constructor <;> decide) (by decide) (by decide)

/-! ### C4: `wal.append` semantics and WAL error (non-)propagation

`append` never blocks and never reports anything: a full channel silently
drops the record (`select` with `default`).  `flushLocked` discards the
return values of both `file.Write` calls, so no OS write error can reach the
`Set` caller; in the embedding this shows up as `storageSet`'s result being
independent of the WAL channel state. -/

/-- **C4 (counterexample).** A channel already holding 2000 queued entries
(its capacity) drops the appended record: the queue is returned unchanged, so
not every record passed to `wal.append` is enqueued. -/
theorem wal_append_drop_cex :
    walAppend (List.replicate 2000 ⟨0, []⟩) 1 [2] = List.replicate 2000 ⟨0, []⟩ ∧
    ⟨1, [2]⟩ ∉ walAppend (List.replicate 2000 ⟨0, []⟩) 1 [2] := by
  have hfull : walAppend (List.replicate 2000 ⟨0, []⟩) 1 [2]
      = List.replicate 2000 ⟨0, []⟩ := by
    rw [walAppend, if_neg]
    simp only [List.length_replicate, walChanCap]
    omega
  refine ⟨hfull, ?_⟩
  rw [hfull]
  intro hmem
  have := List.eq_of_mem_replicate hmem
  simp at this

/-- **C4 (amended).** `wal.append` enqueues the record exactly when the
channel holds fewer than 2000 entries and silently drops it otherwise; and a
WAL write error never propagates to the `Set` caller - the result `Set`
returns is independent of the WAL channel contents (the flusher discards the
`file.Write` errors, and `append` has no return value at all). -/
theorem storageSet_snd (st : StorageSt) (key value : List Nat) (diskOk : Bool)
    (victims : List Nat) :
    (storageSet st key value diskOk victims).2 =
      if value.length > MaxValueSize then Except.error "too large"
      else if diskOk then Except.ok () else Except.error "write failed" := by
  unfold storageSet
  split
  · rfl
  · cases diskOk with
    | false => simp
    | true =>
        simp only [if_true]
        split <;> rfl

theorem wal_append_bounded_amended :
    (∀ (ch : List WalEntry) (h : Nat) (data : List Nat),
      ch.length < 2000 → walAppend ch h data = ch ++ [⟨h, data⟩]) ∧
    (∀ (ch : List WalEntry) (h : Nat) (data : List Nat),
      2000 ≤ ch.length → walAppend ch h data = ch) ∧
    (∀ (st₁ st₂ : StorageSt) (key value : List Nat) (diskOk : Bool) (victims : List Nat),
      (storageSet st₁ key value diskOk victims).2 = (storageSet st₂ key value diskOk victims).2) := by
  refine ⟨?_, ?_, ?_⟩
  · intro ch h data hlt
    rw [walAppend, if_pos (by simpa [walChanCap] using hlt)]
  · intro ch h data hge
    rw [walAppend, if_neg (by simp only [walChanCap]; omega)]
  · intro st₁ st₂ key value diskOk victims
    rw [storageSet_snd, storageSet_snd]

/-- Witness for `wal_append_bounded_amended` at concrete inputs. -/
theorem wal_append_bounded_amended_witness :
    walAppend [⟨9, [1]⟩] 1 [2] = [⟨9, [1]⟩] ++ [⟨1, [2]⟩] ∧
    walAppend (List.replicate 2000 ⟨0, []⟩) 3 [4] = List.replicate 2000 ⟨0, []⟩ ∧
    (storageSet { emptyStorage with walCh := [⟨9, [1]⟩] } [1] [2] true []).2
      = (storageSet { emptyStorage with walCh := List.replicate 2000 ⟨0, []⟩ } [1] [2] true []).2 :=
  ⟨wal_append_bounded_amended.1 [⟨9, [1]⟩] 1 [2] (by decide),
   wal_append_bounded_amended.2.1 (List.replicate 2000 ⟨0, []⟩) 3 [4]
     (by simp only [List.length_replicate]; omega),
   wal_append_bounded_amended.2.2 _ _ [1] [2] true []⟩

/-! ## The binary-protocol cluster file: `Cluster.write`

The demonic environment of one `Cluster.write` call: `semOk i` is whether the
50 ms acquisition of the worker semaphore for replica `i` succeeds (on the
FIRST failure the Go code returns "worker pool exhausted" at once, without
attempting the remaining replicas); `res` lists the replica outcomes in
arrival order on the results channel; `delivered` is how many results arrive
before the 30 s `WriteTimeout` fires.  The code returns nil as soon as the
running success count reaches `quorum = len(nodes)/2 + 1`, which happens for
some arrival prefix iff the successes among the delivered results reach the
quorum. -/

inductive WriteRes where
  | ok | noNodes | poolExhausted | timeout | quorumFailed
deriving DecidableEq

/-- `Cluster.write` over the replica list produced by the placer. -/
def clusterWrite (replicas : List (List Nat)) (semOk : List Bool) (res : List Bool)
    (delivered : Nat) : WriteRes :=
  if replicas.isEmpty then .noNodes
  else if false ∈ semOk then .poolExhausted
  else if replicas.length / 2 + 1 ≤ (res.take delivered).count true then .ok
  else if delivered < replicas.length then .timeout
  else .quorumFailed

/-- **C2 (counterexample).** Three replicas, every attempted write would
succeed, but the semaphore acquisition for the second replica times out: the
code aborts the whole write with "worker pool exhausted" instead of counting
that replica as failed and succeeding with the other two acknowledgements,
as the claim requires. -/
theorem cluster_write_sem_timeout_cex :
    clusterWrite [[97], [98], [99]] [true, false, true] [true, true, true] 3
        = WriteRes.poolExhausted ∧
    clusterWrite [[97], [98], [99]] [true, false, true] [true, true, true] 3
        ≠ WriteRes.ok := by
  constructor <;> decide

/-- **C2 (amended).** `Cluster.write` returns success iff the replica list is
nonempty, NO worker-semaphore acquisition timed out (a single timeout aborts
the entire write without attempting the remaining replicas), and at least
`⌊|replicas|/2⌋ + 1` of the attempts succeed among the results delivered
before the overall timeout; with 3 replicas, success still implies at least
2 acknowledgements. -/
theorem cluster_write_quorum_amended (replicas : List (List Nat))
    (semOk res : List Bool) (delivered : Nat)
    (hs : semOk.length = replicas.length) (hr : res.length = replicas.length)
    (hd : delivered ≤ replicas.length) :
    (clusterWrite replicas semOk res delivered = WriteRes.ok ↔
      replicas ≠ [] ∧ false ∉ semOk ∧
      replicas.length / 2 + 1 ≤ (res.take delivered).count true) ∧
    (replicas.length = 3 → clusterWrite replicas semOk res delivered = WriteRes.ok →
      2 ≤ (res.take delivered).count true) := by
  have hiff : clusterWrite replicas semOk res delivered = WriteRes.ok ↔
      replicas ≠ [] ∧ false ∉ semOk ∧
      replicas.length / 2 + 1 ≤ (res.take delivered).count true := by
    unfold clusterWrite
    split_ifs with h1 h2 h3 h4
    · rw [List.isEmpty_iff] at h1
      simp [h1]
    · simp [h2]
    · rw [List.isEmpty_iff] at h1
      simp [h1, h2, h3]
    · rw [List.isEmpty_iff] at h1
      simp [h1, h2, h3]
    · rw [List.isEmpty_iff] at h1
      simp [h1, h2, h3]
  refine ⟨hiff, fun h3 hok => ?_⟩
  have hcnt := (hiff.mp hok).2.2
  rw [h3] at hcnt
  omega

/-- Witness for `cluster_write_quorum_amended`: three replicas, all semaphore
acquisitions succeed, two of three delivered results are successes. -/
theorem cluster_write_quorum_amended_witness :
    clusterWrite [[97], [98], [99]] [true, true, true] [true, false, true] 3
        = WriteRes.ok ∧
    2 ≤ (([true, false, true] : List Bool).take 3).count true :=
  ⟨((cluster_write_quorum_amended [[97], [98], [99]] [true, true, true]
      [true, false, true] 3 (by decide) (by decide) (by decide)).1).mpr
      (by refine ⟨by decide, by decide, by decide⟩),
   (cluster_write_quorum_amended [[97], [98], [99]] [true, true, true]
      [true, false, true] 3 (by decide) (by decide) (by decide)).2 (by decide)
      (((cluster_write_quorum_amended [[97], [98], [99]] [true, true, true]
        [true, false, true] 3 (by decide) (by decide) (by decide)).1).mpr
        (by refine ⟨by decide, by decide, by decide⟩))⟩

/-! ## The rendezvous placer: `Cluster.hash`

Scores are `crc32(key + node)`.  The node enumeration produced by
`sync.Map.Range` has unspecified order, so the `nodes` argument carries one
such enumeration; `sort.Slice` with comparator `hash i > hash j` guarantees
only a comparator-sorted permutation (it is unstable and, on short slices,
falls back to insertion sort), embedded here as a stable insertion sort -
one legal refinement of its contract. -/

def crcPlace (key node : List Nat) : Nat := crc32 (key ++ node)

structure NScore where
  node : List Nat
  hash : Nat
deriving DecidableEq

/-- "`a` sorts no later than `b`" under the descending comparator
`scores[i].hash > scores[j].hash` of `Cluster.hash`. -/
def scoreLE (a b : NScore) : Prop := b.hash ≤ a.hash

instance : DecidableRel scoreLE := fun a b => Nat.decLe b.hash a.hash

instance : IsTotal NScore scoreLE :=
  ⟨fun a b => (Nat.le_total b.hash a.hash).elim Or.inl Or.inr⟩

instance : IsTrans NScore scoreLE :=
  ⟨fun _ _ _ hab hbc => Nat.le_trans hbc hab⟩

/-- `Cluster.hash`: score, sort descending, clamp the count, project the
node identifiers. -/
def clusterHash (nodes : List (List Nat)) (key : List Nat) (count : Nat) :
    List (List Nat) :=
  if nodes.isEmpty then []
  else
    ((List.insertionSort scoreLE (nodes.map fun n => ⟨n, crcPlace key n⟩)).take
      (min count nodes.length)).map NScore.node

/-- Two comparator-sorted permutations of the same score list agree when the
scores are pairwise distinct on it. -/
theorem eq_of_perm_of_sortedLE :
    ∀ {l₁ l₂ : List NScore}, List.Perm l₁ l₂ →
      l₁.Sorted scoreLE → l₂.Sorted scoreLE →
      (∀ a ∈ l₁, ∀ b ∈ l₁, a.hash = b.hash → a = b) → l₁ = l₂ := by
  intro l₁
  induction l₁ with
  | nil =>
      intro l₂ hp _ _ _
      exact hp.nil_eq
  | cons a t₁ ih =>
      intro l₂ hp hs₁ hs₂ hinj
      cases l₂ with
      | nil => exact absurd hp.symm.nil_eq (by simp)
      | cons b t₂ =>
          rw [List.sorted_cons] at hs₁ hs₂
          have hab : b.hash ≤ a.hash := by
            have hbmem : b ∈ a :: t₁ := hp.mem_iff.mpr (by simp)
            rcases List.mem_cons.mp hbmem with he | ht
            · rw [he]
            · exact hs₁.1 b ht
          have hba : a.hash ≤ b.hash := by
            have hamem : a ∈ b :: t₂ := hp.mem_iff.mp (by simp)
            rcases List.mem_cons.mp hamem with he | ht
            · rw [he]
            · exact hs₂.1 a ht
          have heq : a = b := by
            apply hinj a (by simp) b (hp.mem_iff.mpr (by simp))
            omega
          subst heq
          have ht : List.Perm t₁ t₂ := hp.cons_inv
          rw [ih ht hs₁.2 hs₂.2
            (fun x hx y hy hxy => hinj x (by simp [hx]) y (by simp [hy]) hxy)]

set_option maxRecDepth 8000 in
/-- **C7 (counterexample).** The key `"k"` and the node identifiers
`"l5dmvs"` and `"pz8lbs"` have colliding placement scores
(`crc32("k"+n)` is equal), and for this tie the placer's output follows the
`sync.Map.Range` enumeration order: two enumerations of the same two-node
set yield different ordered replica lists, refuting both the tie-break by
node identifier and the invocation-to-invocation stability of the list. -/
theorem placer_tie_nondeterminism_cex :
    crcPlace [107] [108, 53, 100, 109, 118, 115]
        = crcPlace [107] [112, 122, 56, 108, 98, 115] ∧
    clusterHash [[108, 53, 100, 109, 118, 115], [112, 122, 56, 108, 98, 115]] [107] 2
        ≠ clusterHash [[112, 122, 56, 108, 98, 115], [108, 53, 100, 109, 118, 115]] [107] 2 := by
  constructor <;> decide

/-- **C7 (amended).** The placer returns the first `min(R,|S|)` nodes of a
descending-by-score ordering of the enumeration; when the placement scores
are pairwise distinct the ordered list is the same for every enumeration of
the node set (deterministic and stable), but on score ties the order is NOT
tie-broken by node identifier - it follows the unspecified enumeration and
sort order. -/
theorem placer_sorted_deterministic_amended (key : List Nat) (c : Nat) :
    (∀ nodes : List (List Nat), ∃ sorted : List NScore,
      List.Perm sorted (nodes.map (fun n => ⟨n, crcPlace key n⟩)) ∧
      sorted.Sorted scoreLE ∧
      clusterHash nodes key c = (sorted.take (min c nodes.length)).map NScore.node) ∧
    (∀ nodes₁ nodes₂ : List (List Nat), List.Perm nodes₁ nodes₂ →
      (nodes₁.map (crcPlace key)).Nodup →
      clusterHash nodes₁ key c = clusterHash nodes₂ key c) := by
  constructor
  · intro nodes
    refine ⟨List.insertionSort scoreLE (nodes.map fun n => ⟨n, crcPlace key n⟩),
      List.perm_insertionSort _ _, List.sorted_insertionSort _ _, ?_⟩
    unfold clusterHash
    split
    · rename_i hemp
      rw [List.isEmpty_iff] at hemp
      simp [hemp, List.insertionSort]
    · rfl
  · intro nodes₁ nodes₂ hperm hnd
    have hscores : List.Perm (nodes₁.map fun n => (⟨n, crcPlace key n⟩ : NScore))
        (nodes₂.map fun n => ⟨n, crcPlace key n⟩) := hperm.map _
    have hsorteq : List.insertionSort scoreLE (nodes₁.map fun n => ⟨n, crcPlace key n⟩)
        = List.insertionSort scoreLE (nodes₂.map fun n => ⟨n, crcPlace key n⟩) := by
      apply eq_of_perm_of_sortedLE
      · exact ((List.perm_insertionSort _ _).trans hscores).trans
          (List.perm_insertionSort _ _).symm
      · exact List.sorted_insertionSort _ _
      · exact List.sorted_insertionSort _ _
      · intro a ha b hb hab
        have ha' := (List.perm_insertionSort scoreLE _).mem_iff.mp ha
        have hb' := (List.perm_insertionSort scoreLE _).mem_iff.mp hb
        obtain ⟨na, hna, hea⟩ := List.mem_map.mp ha'
        obtain ⟨nb, hnb, heb⟩ := List.mem_map.mp hb'
        have hmapinj := List.inj_on_of_nodup_map hnd
        have h1 : a.hash = crcPlace key na := by rw [← hea]
        have h2 : b.hash = crcPlace key nb := by rw [← heb]
        have hnaeq : na = nb := hmapinj hna hnb (by omega)
        rw [← hea, ← heb, hnaeq]
    unfold clusterHash
    have hlen : nodes₁.length = nodes₂.length := hperm.length_eq
    have hemp : nodes₁.isEmpty = nodes₂.isEmpty := by
      cases nodes₁ with
      | nil => rw [hperm.nil_eq]
      | cons x xs =>
          cases nodes₂ with
          | nil => exact absurd hperm.symm.nil_eq (by simp)
          | cons y ys => rfl
    rw [hemp, hsorteq, hlen]

/-- Witness for `placer_sorted_deterministic_amended`: the two-node set
`{"a", "b"}` has distinct scores for key `"k"`, and both enumeration orders
give the same replica list. -/
theorem placer_sorted_deterministic_amended_witness :
    clusterHash [[97], [98]] [107] 2 = clusterHash [[98], [97]] [107] 2 :=
  (placer_sorted_deterministic_amended [107] 2).2 [[97], [98]] [[98], [97]]
    (by decide) (by decide)

/-! ## The binary server: `BinaryServer.handle`

One loop iteration of the per-connection handler, processing one request
from the connection's pending bytes.  The environment supplies the outcomes
of the calls the handler makes (`cluster.write`, `cluster.delete`,
`storage.Set` for SYNC, `storage.Get`, the health JSON, the codec); the
`allow` flag is the rate limiter's verdict for this iteration ( `limiter`
is nil iff `rateLimit = 0`).  Responses are modelled as the bytes written;
socket writes are taken to succeed (a failed write only closes the
connection earlier). -/

inductive AuthMode where
  | none | writes | all
deriving DecidableEq

def OpGet : Nat := 1
def OpSet : Nat := 2
def OpDelete : Nat := 3
def OpSync : Nat := 4
def OpHealth : Nat := 5
def OpAuth : Nat := 6

/-- A mutating call the handler hands to the storage/cluster layer. -/
inductive Effect where
  | clusterWrite (key data : List Nat)
  | clusterDelete (key : List Nat)
  | storageSet (key data : List Nat)
deriving DecidableEq

structure HEnv where
  clusterWriteOk : List Nat → List Nat → Bool
  clusterDeleteOk : List Nat → Bool
  storageSetOk : List Nat → List Nat → Bool
  storageGet : List Nat → Option (List Nat)
  healthJson : List Nat
  decompress1 : List Nat → Option (List Nat)

structure SCfg where
  authMode : AuthMode
  authKey : List Nat
  rateLimit : Nat

/-- Modelled from the spec: the `decompress` codec helper is not among the
source files; the spec fixes only the codec contract - `compressed=0`
carries the raw value unchanged, `compressed=1` is decoded by the pluggable
codec, which may fail.  The codec itself is environment-supplied. -/
def decompress (env : HEnv) (v : List Nat) (compressed : Bool) : Option (List Nat) :=
  if compressed then env.decompress1 v else some v

def errResp : List Nat := [255, 0, 0, 0, 0]
def okResp : List Nat := [0, 0, 0, 0, 0]

/-- The `needsAuth` computation of `BinaryServer.handle`. -/
def needsAuth (mode : AuthMode) (op : Nat) : Bool :=
  match mode with
  | .all => decide (op ≠ OpHealth) && decide (op ≠ OpAuth)
  | .writes => decide (op = OpSet) || decide (op = OpDelete) || decide (op = OpSync)
  | .none => false

/-- The result of one handler iteration: the connection is closed or kept,
with the bytes consumed from the socket, the response bytes written, the
mutating calls issued, and (when kept) the new authentication flag. -/
inductive StepRes where
  | closed (consumed : Nat) (resp : List Nat) (effects : List Effect)
  | cont (consumed : Nat) (resp : List Nat) (effects : List Effect) (authenticated : Bool)
deriving DecidableEq

/-- The shared OpSet/OpSync tail: read the 5-byte value header, enforce the
wire-length cap, read the value, decompress, enforce the post-decompression
cap, then issue the write (`call`/`eff` are `cluster.write`/`storage.Set`
for SET/SYNC respectively). -/
def valStage (env : HEnv) (auth : Bool) (consumed0 : Nat)
    (call : List Nat → List Nat → Bool) (eff : List Nat → List Nat → Effect)
    (key rest1 : List Nat) : StepRes :=
  match rest1 with
  | c0 :: c1 :: c2 :: c3 :: c4 :: rest2 =>
      let valLen := c0 + 2 ^ 8 * c1 + 2 ^ 16 * c2 + 2 ^ 24 * c3
      if valLen > MaxValueSize then .cont (consumed0 + 5) errResp [] auth
      else if rest2.length < valLen then .closed (consumed0 + 5 + rest2.length) [] []
      else
        match decompress env (rest2.take valLen) (c4 == 1) with
        | none => .cont (consumed0 + 5 + valLen) errResp [] auth
        | some data =>
            if data.length > MaxValueSize then .cont (consumed0 + 5 + valLen) errResp [] auth
            else if call key data then
              .cont (consumed0 + 5 + valLen) okResp [eff key data] auth
            else .cont (consumed0 + 5 + valLen) errResp [eff key data] auth
  | _ => .closed (consumed0 + rest1.length) [] []

/-- The handler after op and key have been read. -/
def afterKey (cfg : SCfg) (env : HEnv) (auth : Bool) (op : Nat)
    (key rest1 : List Nat) : StepRes :=
  if needsAuth cfg.authMode op && !auth then
    if op = OpSet ∨ op = OpSync then
      match rest1 with
      | c0 :: c1 :: c2 :: c3 :: _ :: rest2 =>
          let valLen := c0 + 2 ^ 8 * c1 + 2 ^ 16 * c2 + 2 ^ 24 * c3
          if valLen > MaxValueSize then .closed (3 + key.length + 5) errResp []
          else .closed (3 + key.length + 5 + min valLen rest2.length) errResp []
      | _ => .closed (3 + key.length + rest1.length) [] []
    else .closed (3 + key.length) errResp []
  else if op = OpAuth then
    if key = cfg.authKey ∧ cfg.authKey ≠ [] then .cont (3 + key.length) okResp [] true
    else .cont (3 + key.length) errResp [] auth
  else if op = OpGet then
    match env.storageGet key with
    | some data => .cont (3 + key.length) (0 :: (le32 data.length ++ data)) [] auth
    | none => .cont (3 + key.length) errResp [] auth
  else if op = OpSet then
    valStage env auth (3 + key.length) env.clusterWriteOk Effect.clusterWrite key rest1
  else if op = OpDelete then
    if env.clusterDeleteOk key then
      .cont (3 + key.length) okResp [Effect.clusterDelete key] auth
    else .cont (3 + key.length) errResp [Effect.clusterDelete key] auth
  else if op = OpSync then
    valStage env auth (3 + key.length) env.storageSetOk Effect.storageSet key rest1
  else if op = OpHealth then
    .cont (3 + key.length) (0 :: (le32 env.healthJson.length ++ env.healthJson)) [] auth
  else .cont (3 + key.length) [] [] auth

/-- One iteration of `BinaryServer.handle`: rate gate, 3-byte header, key,
then dispatch.  A short read closes the connection having consumed whatever
was available. -/
def handleStep (cfg : SCfg) (env : HEnv) (auth : Bool) (allow : Bool)
    (input : List Nat) : StepRes :=
  if cfg.rateLimit > 0 ∧ allow = false then .cont 0 errResp [] auth
  else
    match input with
    | b0 :: b1 :: b2 :: rest0 =>
        if rest0.length < b1 + 256 * b2 then .closed (3 + rest0.length) [] []
        else afterKey cfg env auth b0 (rest0.take (b1 + 256 * b2))
          (rest0.drop (b1 + 256 * b2))
    | _ => .closed input.length [] []

/-- A request frame: op byte, key length (LE16), key, op-specific tail. -/
def reqFrame (op : Nat) (key tail : List Nat) : List Nat :=
  op :: key.length % 256 :: key.length / 256 % 256 :: (key ++ tail)

theorem handleStep_parse (cfg : SCfg) (env : HEnv) (auth allow : Bool)
    (op : Nat) (key tail : List Nat) (hkey : key.length < 2 ^ 16)
    (hallow : cfg.rateLimit = 0 ∨ allow = true) :
    handleStep cfg env auth allow (reqFrame op key tail)
      = afterKey cfg env auth op key tail := by
  unfold handleStep reqFrame
  rw [if_neg (by rcases hallow with h | h <;> simp [h])]
  have hklen : key.length % 256 + 256 * (key.length / 256 % 256) = key.length := by
    omega
  simp only [hklen]
  rw [if_neg (by simp [List.length_append]), List.take_left, List.drop_left]

theorem valStage_val (env : HEnv) (auth : Bool) (consumed0 : Nat)
    (call : List Nat → List Nat → Bool) (eff : List Nat → List Nat → Effect)
    (key v extra : List Nat) (c4 : Nat) (hlt : v.length < 2 ^ 32) :
    valStage env auth consumed0 call eff key (le32 v.length ++ c4 :: (v ++ extra)) =
      if v.length > MaxValueSize then StepRes.cont (consumed0 + 5) errResp [] auth
      else
        match decompress env v (c4 == 1) with
        | none => StepRes.cont (consumed0 + 5 + v.length) errResp [] auth
        | some data =>
            if data.length > MaxValueSize then
              StepRes.cont (consumed0 + 5 + v.length) errResp [] auth
            else if call key data then
              StepRes.cont (consumed0 + 5 + v.length) okResp [eff key data] auth
            else StepRes.cont (consumed0 + 5 + v.length) errResp [eff key data] auth := by
  have hform : le32 v.length ++ c4 :: (v ++ extra)
      = v.length % 256 :: v.length / 256 % 256 :: v.length / 2 ^ 16 % 256
        :: v.length / 2 ^ 24 % 256 :: c4 :: (v ++ extra) := by
    simp [le32]
  rw [hform]
  unfold valStage
  have hvl : v.length % 256 + 2 ^ 8 * (v.length / 256 % 256)
      + 2 ^ 16 * (v.length / 2 ^ 16 % 256) + 2 ^ 24 * (v.length / 2 ^ 24 % 256)
      = v.length := by omega
  simp only [hvl]
  by_cases hbig : v.length > MaxValueSize
  · rw [if_pos hbig, if_pos hbig]
  · rw [if_neg hbig, if_neg hbig,
      if_neg (by simp [List.length_append]), List.take_left]

/-- Dispatch of an OpSet request once the auth gate is passed. -/
theorem afterKey_set (cfg : SCfg) (env : HEnv) (auth : Bool) (key rest1 : List Nat)
    (hgate : (needsAuth cfg.authMode OpSet && !auth) = false) :
    afterKey cfg env auth OpSet key rest1
      = valStage env auth (3 + key.length) env.clusterWriteOk Effect.clusterWrite
          key rest1 := by
  unfold afterKey
  rw [if_neg (by rw [hgate]; simp), if_neg (by decide), if_neg (by decide), if_pos rfl]

/-- **C8.** With the auth gate passed (`hgate`) and a healthy cluster write
(`hok`), an uncompressed SET whose value length is exactly
104857600 = 100 MiB succeeds (status 0x00, the write is issued, the
connection stays open), while one declaring 104857601 is answered with
status 0xFF, issues no storage mutation at all, and leaves the connection
open. -/
theorem set_size_boundary (cfg : SCfg) (env : HEnv) (auth : Bool)
    (key v extra extra2 : List Nat)
    (hgate : (needsAuth cfg.authMode OpSet && !auth) = false)
    (hrl : cfg.rateLimit = 0) (hk : key.length < 2 ^ 16)
    (hv : v.length = 104857600) (hok : env.clusterWriteOk key v = true) :
    handleStep cfg env auth true (reqFrame OpSet key (le32 v.length ++ 0 :: (v ++ extra)))
        = StepRes.cont (3 + key.length + 5 + v.length) okResp
            [Effect.clusterWrite key v] auth ∧
    handleStep cfg env auth true (reqFrame OpSet key (le32 104857601 ++ 0 :: extra2))
        = StepRes.cont (3 + key.length + 5) errResp [] auth := by
  constructor
  · rw [handleStep_parse cfg env auth true OpSet key _ hk (Or.inl hrl),
      afterKey_set cfg env auth key _ hgate,
      valStage_val env auth _ env.clusterWriteOk Effect.clusterWrite key v extra 0
        (by omega)]
    rw [if_neg (by rw [hv]; norm_num [MaxValueSize])]
    show (match some v with
      | none => StepRes.cont (3 + key.length + 5 + v.length) errResp [] auth
      | some data =>
          if data.length > MaxValueSize then
            StepRes.cont (3 + key.length + 5 + v.length) errResp [] auth
          else if env.clusterWriteOk key data then
            StepRes.cont (3 + key.length + 5 + v.length) okResp
              [Effect.clusterWrite key data] auth
          else StepRes.cont (3 + key.length + 5 + v.length) errResp
            [Effect.clusterWrite key data] auth) = _
    rw [show (match some v with
      | none => StepRes.cont (3 + key.length + 5 + v.length) errResp [] auth
      | some data =>
          if data.length > MaxValueSize then
            StepRes.cont (3 + key.length + 5 + v.length) errResp [] auth
          else if env.clusterWriteOk key data then
            StepRes.cont (3 + key.length + 5 + v.length) okResp
              [Effect.clusterWrite key data] auth
          else StepRes.cont (3 + key.length + 5 + v.length) errResp
            [Effect.clusterWrite key data] auth)
      = (if v.length > MaxValueSize then
            StepRes.cont (3 + key.length + 5 + v.length) errResp [] auth
          else if env.clusterWriteOk key v then
            StepRes.cont (3 + key.length + 5 + v.length) okResp
              [Effect.clusterWrite key v] auth
          else StepRes.cont (3 + key.length + 5 + v.length) errResp
            [Effect.clusterWrite key v] auth) from rfl]
    rw [if_neg (by rw [hv]; norm_num [MaxValueSize]), if_pos hok]
  · rw [handleStep_parse cfg env auth true OpSet key _ hk (Or.inl hrl),
      afterKey_set cfg env auth key _ hgate]
    rw [show le32 104857601 ++ 0 :: extra2 = 1 :: 0 :: 64 :: 6 :: 0 :: extra2 from rfl]
    simp only [valStage]
    norm_num [MaxValueSize]

/-- Witness for `set_size_boundary` on a concrete 100 MiB value. -/
theorem set_size_boundary_witness :
    handleStep ⟨AuthMode.none, [], 0⟩
        { clusterWriteOk := fun _ _ => true, clusterDeleteOk := fun _ => true,
          storageSetOk := fun _ _ => true, storageGet := fun _ => none,
          healthJson := [], decompress1 := fun _ => none } false true
        (reqFrame OpSet [7]
          (le32 (List.replicate 104857600 (0 : Nat)).length
            ++ 0 :: (List.replicate 104857600 (0 : Nat) ++ [])))
        = StepRes.cont (3 + [7].length + 5 + (List.replicate 104857600 (0 : Nat)).length)
            okResp [Effect.clusterWrite [7] (List.replicate 104857600 (0 : Nat))] false ∧
    handleStep ⟨AuthMode.none, [], 0⟩
        { clusterWriteOk := fun _ _ => true, clusterDeleteOk := fun _ => true,
          storageSetOk := fun _ _ => true, storageGet := fun _ => none,
          healthJson := [], decompress1 := fun _ => none } false true
        (reqFrame OpSet [7] (le32 104857601 ++ 0 :: []))
        = StepRes.cont (3 + [7].length + 5) errResp [] false :=
  set_size_boundary ⟨AuthMode.none, [], 0⟩ _ false [7]
    (List.replicate 104857600 (0 : Nat)) [] [] (by decide) rfl (by decide)
    (by rw [List.length_replicate]) rfl

/-! ### C3: the per-connection auth gate under authmode=writes -/

/-- A concrete environment for closed statements: every mutating call
succeeds, GET misses, the codec rejects everything. -/
def cexEnv : HEnv :=
  { clusterWriteOk := fun _ _ => true, clusterDeleteOk := fun _ => true,
    storageSetOk := fun _ _ => true, storageGet := fun _ => none,
    healthJson := [], decompress1 := fun _ => none }

/-- **C3 (counterexample).** authmode=writes, key `"\x09"` configured, fresh
(unauthenticated) connection: a SET for key `[7]` declaring a 104857601-byte
value arrives with 3 value bytes already pending.  The server answers 0xFF
and closes after consuming only the 9 header/key/value-header bytes - the
value bytes, part of the request, are left unread (the full request would be
104857610 bytes), so "consumes the full request" fails as stated, while the
reply, the close and the absence of any storage effect do hold. -/
theorem unauth_oversize_set_partial_consume_cex :
    handleStep ⟨AuthMode.writes, [9], 0⟩ cexEnv false true
        (reqFrame OpSet [7] (le32 104857601 ++ 0 :: [1, 2, 3]))
      = StepRes.closed 9 errResp [] ∧
    (reqFrame OpSet [7] (le32 104857601 ++ 0 :: [1, 2, 3])).length = 12 := by
  constructor <;> decide

/-- **C3 (amended).** Under authmode=writes with a non-empty configured key,
on an unauthenticated connection: (a) a DELETE is consumed in full, answered
0xFF and the connection closed, with no storage call; (b) a SET/SYNC whose
declared value length is within the 100 MiB cap is consumed in full
(including the value bytes), answered 0xFF, closed, no storage call; (c) a
SET/SYNC declaring more than the cap is answered 0xFF and closed WITHOUT
consuming its value bytes; (d) GET proceeds exactly as it would
authenticated; (e) HEALTH likewise; (f) AUTH with the matching key answers
0x00 and moves the connection to Authenticated. -/
theorem auth_writes_gating_amended (cfg : SCfg) (env : HEnv) (key : List Nat)
    (hmode : cfg.authMode = AuthMode.writes) (hak : cfg.authKey ≠ [])
    (hk : key.length < 2 ^ 16) (hrl : cfg.rateLimit = 0) :
    (∀ tail, handleStep cfg env false true (reqFrame OpDelete key tail)
        = StepRes.closed (3 + key.length) errResp []) ∧
    (∀ op v extra, op = OpSet ∨ op = OpSync → v.length ≤ MaxValueSize →
      handleStep cfg env false true (reqFrame op key (le32 v.length ++ 0 :: (v ++ extra)))
        = StepRes.closed (3 + key.length + 5 + v.length) errResp []) ∧
    (∀ op extra, op = OpSet ∨ op = OpSync →
      handleStep cfg env false true (reqFrame op key (le32 104857601 ++ 0 :: extra))
        = StepRes.closed (3 + key.length + 5) errResp []) ∧
    (∀ tail, handleStep cfg env false true (reqFrame OpGet key tail)
        = match env.storageGet key with
          | some data =>
              StepRes.cont (3 + key.length) (0 :: (le32 data.length ++ data)) [] false
          | none => StepRes.cont (3 + key.length) errResp [] false) ∧
    (∀ tail, handleStep cfg env false true (reqFrame OpHealth key tail)
        = StepRes.cont (3 + key.length)
            (0 :: (le32 env.healthJson.length ++ env.healthJson)) [] false) ∧
    (∀ tail, key = cfg.authKey →
      handleStep cfg env false true (reqFrame OpAuth key tail)
        = StepRes.cont (3 + key.length) okResp [] true) := by
  refine ⟨?_, ?_, ?_, ?_, ?_, ?_⟩
  · intro tail
    rw [handleStep_parse cfg env false true OpDelete key tail hk (Or.inl hrl)]
    unfold afterKey
    rw [if_pos (by rw [hmode]; decide), if_neg (by decide)]
  · intro op v extra hop hle
    rcases hop with h | h <;> subst h <;>
      (rw [handleStep_parse cfg env false true _ key _ hk (Or.inl hrl)]
       unfold afterKey
       rw [if_pos (by rw [hmode]; decide), if_pos (by decide)]
       rw [show le32 v.length ++ 0 :: (v ++ extra)
            = v.length % 256 :: v.length / 256 % 256 :: v.length / 2 ^ 16 % 256
              :: v.length / 2 ^ 24 % 256 :: 0 :: (v ++ extra) from by simp [le32]]
       simp only
       rw [show v.length % 256 + 2 ^ 8 * (v.length / 256 % 256)
            + 2 ^ 16 * (v.length / 2 ^ 16 % 256) + 2 ^ 24 * (v.length / 2 ^ 24 % 256)
            = v.length from by
          have : v.length < 2 ^ 32 := by
            have : MaxValueSize < 2 ^ 32 := by norm_num [MaxValueSize]
            omega
          omega]
       rw [if_neg (by omega),
         show min v.length (v ++ extra).length = v.length from by
           simp [List.length_append]])
  · intro op extra hop
    rcases hop with h | h <;> subst h <;>
      (rw [handleStep_parse cfg env false true _ key _ hk (Or.inl hrl)]
       unfold afterKey
       rw [if_pos (by rw [hmode]; decide), if_pos (by decide)]
       rw [show le32 104857601 ++ 0 :: extra = 1 :: 0 :: 64 :: 6 :: 0 :: extra from rfl]
       simp only
       rw [if_pos (by norm_num [MaxValueSize])])
  · intro tail
    rw [handleStep_parse cfg env false true OpGet key tail hk (Or.inl hrl)]
    unfold afterKey
    rw [if_neg (by rw [hmode]; decide), if_neg (by decide), if_pos rfl]
  · intro tail
    rw [handleStep_parse cfg env false true OpHealth key tail hk (Or.inl hrl)]
    unfold afterKey
    rw [if_neg (by rw [hmode]; decide), if_neg (by decide), if_neg (by decide),
      if_neg (by decide), if_neg (by decide), if_neg (by decide), if_pos rfl]
  · intro tail hkey
    rw [handleStep_parse cfg env false true OpAuth key tail hk (Or.inl hrl)]
    unfold afterKey
    rw [if_neg (by rw [hmode]; decide), if_pos rfl, if_pos ⟨hkey, hak⟩]

/-- Witness for `auth_writes_gating_amended` at a concrete configuration
(authmode=writes, key `[9]`): an unauthenticated DELETE and an in-cap SET
are rejected, consumed in full and closed; AUTH with the right key
authenticates. -/
theorem auth_writes_gating_amended_witness :
    handleStep ⟨AuthMode.writes, [9], 0⟩ cexEnv false true (reqFrame OpDelete [7] [])
        = StepRes.closed (3 + [7].length) errResp [] ∧
    handleStep ⟨AuthMode.writes, [9], 0⟩ cexEnv false true
        (reqFrame OpSet [7] (le32 [5, 6].length ++ 0 :: ([5, 6] ++ [])))
        = StepRes.closed (3 + [7].length + 5 + [5, 6].length) errResp [] ∧
    handleStep ⟨AuthMode.writes, [9], 0⟩ cexEnv false true (reqFrame OpAuth [9] [])
        = StepRes.cont (3 + [9].length) okResp [] true :=
  ⟨(auth_writes_gating_amended ⟨AuthMode.writes, [9], 0⟩ cexEnv [7] rfl
      (by decide) (by decide) rfl).1 [],
   (auth_writes_gating_amended ⟨AuthMode.writes, [9], 0⟩ cexEnv [7] rfl
      (by decide) (by decide) rfl).2.1 OpSet [5, 6] [] (Or.inl rfl) (by decide),
   (auth_writes_gating_amended ⟨AuthMode.writes, [9], 0⟩ cexEnv [9] rfl
      (by decide) (by decide) rfl).2.2.2.2.2 [] rfl⟩

end Minivault
